import Mathlib

/-!
Shallow embedding of the chapter-removal engine in src/main.py
(function remove_chapters_from_mp3).

The decoded ID3 tag set is modelled as a list of frames in iteration
order; a CHAP frame carries its element id, start and end times in
milliseconds, and its sub-frames; a CTOC frame carries its element id
and ordered child element ids; every other frame is opaque, carried as
its hash key and payload.  The decoded audio is a millisecond-addressable
sample buffer, modelled as a list with one sample per millisecond, with
pydub slice and concatenation semantics.
-/

/-- A CHAP frame (mutagen CHAP): element id, start and end times in
milliseconds, and the sub-frames as key and value pairs; the first
sub-frame whose key starts with TIT2 holds the title. -/
structure Chap where
  element_id : String
  start_time : Int
  end_time : Int
  sub_frames : List (String × String)
deriving DecidableEq

/-- A CTOC frame (mutagen CTOC): element id and ordered child element ids. -/
structure Ctoc where
  element_id : String
  child_element_ids : List String
deriving DecidableEq

/-- A decoded ID3 frame: chapter, table of contents, or any other frame
(kept opaque as its hash key and payload). -/
inductive Frame where
  | chap : Chap → Frame
  | ctoc : Ctoc → Frame
  | other : String → String → Frame
deriving DecidableEq

/-- Boolean test that the first list of characters is an initial segment
of the second. -/
def isPrefList : List Char → List Char → Bool
  | [], _ => true
  | _ :: _, [] => false
  | a :: as, b :: bs => a == b && isPrefList as bs

/-- Boolean substring containment on character lists (Python `in` on
strings): the empty needle is contained in everything. -/
def containsSub (needle : List Char) : List Char → Bool
  | [] => needle.isEmpty
  | b :: bs => isPrefList needle (b :: bs) || containsSub needle bs

/-- Lower-casing of a string, character by character (Python str.lower
restricted to the characters Char.toLower handles). -/
def lowerStr (s : String) : String := String.mk (s.toList.map Char.toLower)

/-- main.py line 53: `filter_string.lower() in title.lower()` — the
case-insensitive substring test deciding removal. -/
def matchesFilter (fs title : String) : Bool :=
  containsSub (lowerStr fs).toList (lowerStr title).toList

/-- main.py lines 36-41: the chapter title is the value of the first
sub-frame whose key starts with TIT2, else the empty string. -/
def chapTitle (c : Chap) : String :=
  match c.sub_frames.find? (fun kv => isPrefList "TIT2".toList kv.1.toList) with
  | some kv => kv.2
  | none => ""

/-- Stable insertion of an element into a list: it is placed before the
first element it is `le`-below, hence after all earlier equal keys. -/
def insertLe (le : α → α → Bool) (a : α) : List α → List α
  | [] => [a]
  | b :: l => if le a b then a :: b :: l else b :: insertLe le a l

/-- Stable ascending sort (the semantics of Python list.sort with a key):
insertion sort built from `insertLe`. -/
def sortLe (le : α → α → Bool) : List α → List α
  | [] => []
  | x :: xs => insertLe le x (sortLe le xs)

/-- main.py lines 33-44: the CHAP frames of the tag set in iteration
order. -/
def extractChapters (frames : List Frame) : List Chap :=
  frames.filterMap (fun f => match f with
    | Frame.chap c => some c
    | _ => none)

/-- main.py lines 45-46: the TOC element; when several CTOC frames exist
the last one wins. -/
def toc_element (frames : List Frame) : Option Ctoc :=
  frames.foldl (fun acc f => match f with
    | Frame.ctoc t => some t
    | _ => acc) none

/-- An input chapter together with its position among the CHAP frames of
the input; the position stands for Python object identity, since the
source mutates the frame objects in place. -/
abbrev IChap := Nat × Chap

/-- The chapters of the input, each paired with its input position. -/
def all_chapters (frames : List Frame) : List IChap :=
  (extractChapters frames).enum

/-- Comparison by start time used for the sorts at main.py lines 49, 65
and 102. -/
def chapLe (a b : IChap) : Bool := decide (a.2.start_time ≤ b.2.start_time)

/-- main.py line 49: all chapters sorted ascending by start time (stable,
like Python list.sort). -/
def sorted_chapters (frames : List Frame) : List IChap :=
  sortLe chapLe (all_chapters frames)

/-- main.py lines 52-58: the element ids of the chapters whose title
contains the filter string case-insensitively, collected in timeline
order. -/
def chapters_to_remove (frames : List Frame) (fs : String) : List String :=
  ((sorted_chapters frames).filter
    (fun q => matchesFilter fs (chapTitle q.2))).map (fun q => q.2.element_id)

/-- main.py lines 52-62: pairs each chapter (in timeline order) with the
running total of removed duration after processing it — the value
appended to chapters_time_adjustments at that index. -/
def adjustPairs (fs : String) : Int → List IChap → List (IChap × Int)
  | _, [] => []
  | total, q :: rest =>
    let t := if matchesFilter fs (chapTitle q.2)
             then total + (q.2.end_time - q.2.start_time) else total
    (q, t) :: adjustPairs fs t rest

/-- The chapters in timeline order, each with its time adjustment. -/
def adjusted_chapters (frames : List Frame) (fs : String) : List (IChap × Int) :=
  adjustPairs fs 0 (sorted_chapters frames)

/-- main.py lines 68-73: a chapter whose element id is not in the removal
list has the adjustment subtracted from both offsets; removed chapters
are left untouched. -/
def retimeChap (rem : List String) (c : Chap) (a : Int) : Chap :=
  if c.element_id ∈ rem then c
  else { c with start_time := c.start_time - a, end_time := c.end_time - a }

/-- The timeline after the in-place mutation of main.py lines 68-73. -/
def updated_chapters (frames : List Frame) (fs : String) : List IChap :=
  (adjusted_chapters frames fs).map
    (fun p => (p.1.1, retimeChap (chapters_to_remove frames fs) p.1.2 p.2))

/-- The post-mutation value of the chapter object that sat at input
position i (every later read of the id3 mapping sees this value). -/
def updatedChapAt (frames : List Frame) (fs : String) (i : Nat) (c : Chap) : Chap :=
  match (updated_chapters frames fs).lookup i with
  | some c2 => c2
  | none => c

/-- Rebuilds a frame list, replacing the chapter at each chapter position
by a function of its position and old value. -/
def substituteChaps (g : Nat → Chap → Chap) : Nat → List Frame → List Frame
  | _, [] => []
  | i, Frame.chap c :: fs => Frame.chap (g i c) :: substituteChaps g (i + 1) fs
  | i, f :: fs => f :: substituteChaps g i fs

/-- The id3 mapping as every read after main.py line 73 sees it: chapter
frames mutated in place, everything else untouched. -/
def updatedFrames (frames : List Frame) (fs : String) : List Frame :=
  substituteChaps (updatedChapAt frames fs) 0 frames

/-- main.py lines 78-81: the TOC after dropping the removed child ids
(mutated in place as well). -/
def updated_toc (frames : List Frame) (fs : String) : Option Ctoc :=
  (toc_element frames).map (fun t =>
    let kept := t.child_element_ids.filter
      (fun x => !decide (x ∈ chapters_to_remove frames fs))
    { t with child_element_ids := kept })

/-- Python slice semantics on a list (bytes-style): negative indices wrap
from the end once, indices are clamped to the list, and an empty list
results when the normalized start is at or past the stop. -/
def pySlice (l : List Nat) (a b : Int) : List Nat :=
  let n : Int := l.length
  let a2 := if a < 0 then max 0 (a + n) else min a n
  let b2 := if b < 0 then max 0 (b + n) else min b n
  (l.drop a2.toNat).take (b2.toNat - a2.toNat)

/-- pydub AudioSegment slicing in milliseconds: both endpoints are first
clamped above by the length, a negative endpoint is rebased from the end
(AudioSegment._parse_position), then the data is sliced Python-style. -/
def pydubSlice (l : List Nat) (start stop : Int) : List Nat :=
  let n : Int := l.length
  let s := min start n
  let e := min stop n
  pySlice l (if s < 0 then n + s else s) (if e < 0 then n + e else e)

/-- main.py lines 93-102: the chapter frames (as mutated) whose element
id is not in the removal list, in id3 iteration order, then sorted by
their (already retimed) start time. -/
def valid_chapters (frames : List Frame) (fs : String) : List Chap :=
  sortLe (fun a b => decide (a.start_time ≤ b.start_time))
    ((extractChapters (updatedFrames frames fs)).filter
      (fun c => !decide (c.element_id ∈ chapters_to_remove frames fs)))

/-- main.py lines 105-112: concatenation of the buffer slices taken at
each listed chapter, in list order, starting from the empty segment. -/
def spliceAudio (buf : List Nat) (chs : List Chap) : List Nat :=
  chs.foldl (fun acc c => acc ++ pydubSlice buf c.start_time c.end_time) []

/-- The audio buffer the splicer produces (main.py new_audio_segment). -/
def new_audio_segment (frames : List Frame) (fs : String) (buf : List Nat) : List Nat :=
  spliceAudio buf (valid_chapters frames fs)

/-- The mutagen hash key of a frame, under which ID3.add stores it. -/
def keyOf : Frame → String
  | Frame.chap c => "CHAP:" ++ c.element_id
  | Frame.ctoc t => "CTOC:" ++ t.element_id
  | Frame.other k _ => k

/-- ID3.add semantics on the output tag store: replace in place the frame
with the same hash key when present, append otherwise. -/
def upsert (store : List Frame) (f : Frame) : List Frame :=
  if store.any (fun g => keyOf g == keyOf f)
  then store.map (fun g => if keyOf g == keyOf f then f else g)
  else store ++ [f]

/-- main.py lines 123-146: the output tag set — the mutated TOC (when the
input had one), then every frame of the mutated id3 mapping except CTOC
frames and removed chapters, then the TDRL processing-date frame, added
unconditionally last, with the given date string (strftime Y-m-d). -/
def output_id3 (frames : List Frame) (fs : String) (d : String) : List Frame :=
  upsert
    ((updatedFrames frames fs).foldl (fun s f =>
      match f with
      | Frame.chap c => if decide (c.element_id ∈ chapters_to_remove frames fs) then s
                        else upsert s (Frame.chap c)
      | Frame.ctoc _ => s
      | Frame.other k v => upsert s (Frame.other k v))
      (match updated_toc frames fs with
        | some t => upsert [] (Frame.ctoc t)
        | none => []))
    (Frame.other "TDRL" d)

/-- The chapter frames of a tag store, in store order. -/
def chapFrames (store : List Frame) : List Chap :=
  store.filterMap (fun f => match f with | Frame.chap c => some c | _ => none)

/-- The CTOC frames of a tag store, in store order. -/
def ctocFrames (store : List Frame) : List Ctoc :=
  store.filterMap (fun f => match f with | Frame.ctoc t => some t | _ => none)

/-! ### Basic lemmas about the stable sort and the planner -/

theorem insertLe_perm (le : α → α → Bool) (a : α) :
    ∀ l : List α, (insertLe le a l).Perm (a :: l) := by
  intro l
  induction l with
  | nil => exact List.Perm.refl _
  | cons b l ih =>
    simp only [insertLe]
    split
    · exact List.Perm.refl _
    · exact (ih.cons b).trans (List.Perm.swap a b l)

theorem sortLe_perm (le : α → α → Bool) : ∀ l : List α, (sortLe le l).Perm l := by
  intro l
  induction l with
  | nil => exact List.Perm.refl _
  | cons x xs ih => exact (insertLe_perm le x (sortLe le xs)).trans (ih.cons x)

theorem mem_sortLe {le : α → α → Bool} {a : α} {l : List α} :
    a ∈ sortLe le l ↔ a ∈ l :=
  (sortLe_perm le l).mem_iff

theorem adjustPairs_map_fst (fs : String) :
    ∀ (t : Int) (l : List IChap), (adjustPairs fs t l).map Prod.fst = l := by
  intro t l
  induction l generalizing t with
  | nil => rfl
  | cons q rest ih => simp [adjustPairs, ih]

theorem adjustPairs_length (fs : String) (t : Int) (l : List IChap) :
    (adjustPairs fs t l).length = l.length := by
  have h := adjustPairs_map_fst fs t l
  have h2 := congrArg List.length h
  simpa using h2

theorem mem_adjustPairs_fst (fs : String) :
    ∀ {t : Int} {l : List IChap} {p : IChap × Int}, p ∈ adjustPairs fs t l → p.1 ∈ l := by
  intro t l
  induction l generalizing t with
  | nil => intro p h; simp [adjustPairs] at h
  | cons q rest ih =>
    intro p h
    simp only [adjustPairs] at h
    rcases List.mem_cons.mp h with h | h
    · subst h; exact List.mem_cons_self _ _
    · exact List.mem_cons_of_mem _ (ih h)

theorem exists_adjustPairs_of_mem (fs : String) :
    ∀ {l : List IChap} {q : IChap}, q ∈ l → ∀ t : Int, ∃ a : Int, (q, a) ∈ adjustPairs fs t l := by
  intro l
  induction l with
  | nil => intro q h; simp at h
  | cons x rest ih =>
    intro q h t
    rcases List.mem_cons.mp h with h | h
    · subst h
      exact ⟨_, List.mem_cons_self _ _⟩
    · obtain ⟨a, ha⟩ := ih h (if matchesFilter fs (chapTitle x.2)
        then t + (x.2.end_time - x.2.start_time) else t)
      exact ⟨a, by simp only [adjustPairs]; exact List.mem_cons_of_mem _ ha⟩

theorem retimeChap_id (rem : List String) (c : Chap) (a : Int) :
    (retimeChap rem c a).element_id = c.element_id := by
  unfold retimeChap; split <;> rfl

theorem lookup_eq_of_mem_nodup :
    ∀ {l : List (Nat × Chap)} {i : Nat} {c : Chap},
      ((l.map Prod.fst).Nodup) → (i, c) ∈ l → l.lookup i = some c := by
  intro l
  induction l with
  | nil => intro i c _ h; simp at h
  | cons p rest ih =>
    intro i c hn hm
    obtain ⟨j, d⟩ := p
    simp only [List.map_cons, List.nodup_cons] at hn
    rcases List.mem_cons.mp hm with h | h
    · cases h
      simp [List.lookup]
    · have hij : i ≠ j := by
        intro e
        subst e
        exact hn.1 (List.mem_map.mpr ⟨(i, c), h, rfl⟩)
      have hbe : (i == j) = false := beq_eq_false_iff_ne.mpr hij
      simp only [List.lookup, hbe]
      exact ih hn.2 h

theorem all_chapters_fst (frames : List Frame) :
    (all_chapters frames).map Prod.fst = List.range (extractChapters frames).length := by
  unfold all_chapters
  exact List.enum_map_fst _

theorem sorted_fst_nodup (frames : List Frame) :
    ((sorted_chapters frames).map Prod.fst).Nodup := by
  have hp : ((sorted_chapters frames).map Prod.fst).Perm ((all_chapters frames).map Prod.fst) :=
    (sortLe_perm _ _).map _
  rw [hp.nodup_iff, all_chapters_fst]
  exact List.nodup_range _

theorem updated_fst_nodup (frames : List Frame) (fs : String) :
    ((updated_chapters frames fs).map Prod.fst).Nodup := by
  have h1 : (updated_chapters frames fs).map Prod.fst
      = ((adjusted_chapters frames fs).map Prod.fst).map Prod.fst := by
    unfold updated_chapters
    rw [List.map_map, List.map_map]
    rfl
  rw [h1]
  unfold adjusted_chapters
  rw [adjustPairs_map_fst]
  exact sorted_fst_nodup frames

theorem updatedChapAt_spec (frames : List Frame) (fs : String) {i : Nat} {c : Chap}
    (hm : (i, c) ∈ all_chapters frames) :
    ∃ a : Int, ((i, c), a) ∈ adjusted_chapters frames fs ∧
      updatedChapAt frames fs i c = retimeChap (chapters_to_remove frames fs) c a := by
  have hms : (i, c) ∈ sorted_chapters frames := mem_sortLe.mpr hm
  obtain ⟨a, ha⟩ := exists_adjustPairs_of_mem fs hms 0
  refine ⟨a, ha, ?_⟩
  have hmem2 : (i, retimeChap (chapters_to_remove frames fs) c a) ∈ updated_chapters frames fs := by
    unfold updated_chapters
    exact List.mem_map.mpr ⟨((i, c), a), ha, rfl⟩
  unfold updatedChapAt
  rw [lookup_eq_of_mem_nodup (updated_fst_nodup frames fs) hmem2]

theorem updatedChapAt_id (frames : List Frame) (fs : String) {i : Nat} {c : Chap}
    (hm : (i, c) ∈ all_chapters frames) :
    (updatedChapAt frames fs i c).element_id = c.element_id := by
  obtain ⟨a, _, he⟩ := updatedChapAt_spec frames fs hm
  rw [he, retimeChap_id]

/-! ### The cumulative shift (claim C5 machinery) -/

/-- Sum, over a chapter list, of the duration of the chapters whose title
matches the filter: the amount the running total of adjustPairs grows by. -/
def msum (fs : String) (l : List IChap) : Int :=
  (l.map (fun q => if matchesFilter fs (chapTitle q.2)
    then q.2.end_time - q.2.start_time else 0)).sum

/-- The shift as the specification words it: total duration of the removed
chapters with timeline index at most i. -/
def removedShift (frames : List Frame) (fs : String) (i : Nat) : Int :=
  ((((sorted_chapters frames).take (i + 1)).filter
    (fun q => decide (q.2.element_id ∈ chapters_to_remove frames fs))).map
    (fun q => q.2.end_time - q.2.start_time)).sum

theorem adjustPairs_getElem (fs : String) :
    ∀ (l : List IChap) (t : Int) (i : Nat) (h2 : i < l.length)
      (h : i < (adjustPairs fs t l).length),
      (adjustPairs fs t l)[i] = (l[i], t + msum fs (l.take (i + 1))) := by
  intro l
  induction l with
  | nil => intro t i h2 h; exact absurd h2 (by simp)
  | cons q rest ih =>
    intro t i h2 h
    cases i with
    | zero =>
      simp only [adjustPairs, List.getElem_cons_zero, List.take_succ_cons, List.take_zero,
        msum, List.map_cons, List.map_nil, List.sum_cons, List.sum_nil]
      by_cases hm : matchesFilter fs (chapTitle q.2) <;> simp [hm]
    | succ n =>
      have h2r : n < rest.length := by simpa using h2
      have hr : n < (adjustPairs fs
          (if matchesFilter fs (chapTitle q.2)
           then t + (q.2.end_time - q.2.start_time) else t) rest).length := by
        rw [adjustPairs_length]; exact h2r
      simp only [adjustPairs, List.getElem_cons_succ]
      rw [ih _ n h2r hr]
      simp only [List.take_succ_cons, msum, List.map_cons, List.sum_cons]
      by_cases hm : matchesFilter fs (chapTitle q.2) <;> simp only [hm, if_true, if_false] <;>
        refine Prod.ext rfl ?_ <;> simp [msum] <;> ring

theorem sorted_ids_perm (frames : List Frame) :
    ((sorted_chapters frames).map (fun q : IChap => q.2.element_id)).Perm
      ((all_chapters frames).map (fun q : IChap => q.2.element_id)) :=
  (sortLe_perm _ _).map _

theorem matches_iff_mem_remove (frames : List Frame) (fs : String)
    (hids : ((all_chapters frames).map (fun q : IChap => q.2.element_id)).Nodup)
    {q : IChap} (hq : q ∈ sorted_chapters frames) :
    matchesFilter fs (chapTitle q.2) = true ↔
      q.2.element_id ∈ chapters_to_remove frames fs := by
  constructor
  · intro hm
    exact List.mem_map.mpr ⟨q, List.mem_filter.mpr ⟨hq, hm⟩, rfl⟩
  · intro hm
    obtain ⟨q2, hq2, hid⟩ := List.mem_map.mp hm
    have hq2f := List.mem_filter.mp hq2
    have hnod : ((sorted_chapters frames).map (fun q : IChap => q.2.element_id)).Nodup :=
      ((sorted_ids_perm frames).nodup_iff).mpr hids
    have heq : q2 = q := List.inj_on_of_nodup_map hnod hq2f.1 hq hid
    rw [← heq]
    exact hq2f.2

theorem sum_filter_ite (p : IChap → Bool) (f : IChap → Int) :
    ∀ l : List IChap, ((l.filter p).map f).sum = (l.map (fun x => if p x then f x else 0)).sum := by
  intro l
  induction l with
  | nil => rfl
  | cons x xs ih => by_cases h : p x <;> simp [List.filter_cons, h, ih]

theorem removedShift_eq_msum (frames : List Frame) (fs : String) (i : Nat)
    (hids : ((all_chapters frames).map (fun q : IChap => q.2.element_id)).Nodup) :
    removedShift frames fs i = msum fs ((sorted_chapters frames).take (i + 1)) := by
  unfold removedShift msum
  rw [sum_filter_ite]
  have hcong : ∀ q ∈ (sorted_chapters frames).take (i + 1),
      (if decide (q.2.element_id ∈ chapters_to_remove frames fs) = true
        then q.2.end_time - q.2.start_time else 0)
      = (if matchesFilter fs (chapTitle q.2) = true
        then q.2.end_time - q.2.start_time else 0) := by
    intro q hq
    have hqs : q ∈ sorted_chapters frames := List.take_subset _ _ hq
    have hiff := matches_iff_mem_remove frames fs hids hqs
    by_cases hmem : q.2.element_id ∈ chapters_to_remove frames fs
    · rw [if_pos (by simpa using hmem), if_pos (hiff.mpr hmem)]
    · rw [if_neg (by simpa using hmem), if_neg (by
        intro hc
        exact hmem (hiff.mp hc))]
  rw [List.map_congr_left hcong]

/-! ### The mutated id3 mapping and the output tag store -/

theorem extract_substituteChaps (g : Nat → Chap → Chap) :
    ∀ (l : List Frame) (i : Nat),
      extractChapters (substituteChaps g i l)
        = (List.enumFrom i (extractChapters l)).map (fun p => g p.1 p.2) := by
  intro l
  induction l with
  | nil => intro i; rfl
  | cons f rest ih =>
    intro i
    cases f with
    | chap c =>
      simp [substituteChaps, extractChapters, List.filterMap_cons, List.enumFrom] at ih ⊢
      exact ih (i + 1)
    | ctoc t =>
      simp [substituteChaps, extractChapters, List.filterMap_cons] at ih ⊢
      exact ih i
    | other k v =>
      simp [substituteChaps, extractChapters, List.filterMap_cons] at ih ⊢
      exact ih i

theorem extract_updatedFrames (frames : List Frame) (fs : String) :
    extractChapters (updatedFrames frames fs)
      = (all_chapters frames).map (fun p => updatedChapAt frames fs p.1 p.2) := by
  unfold updatedFrames all_chapters
  rw [extract_substituteChaps]
  rfl

theorem other_mem_substituteChaps (g : Nat → Chap → Chap) (k v : String) :
    ∀ (l : List Frame) (i : Nat),
      Frame.other k v ∈ substituteChaps g i l ↔ Frame.other k v ∈ l := by
  intro l
  induction l with
  | nil => intro i; exact Iff.rfl
  | cons f rest ih =>
    intro i
    cases f with
    | chap c => simp [substituteChaps, ih]
    | ctoc t => simp [substituteChaps, ih]
    | other k2 v2 => simp [substituteChaps, ih]

theorem ctoc_mem_substituteChaps (g : Nat → Chap → Chap) (t : Ctoc) :
    ∀ (l : List Frame) (i : Nat),
      Frame.ctoc t ∈ substituteChaps g i l ↔ Frame.ctoc t ∈ l := by
  intro l
  induction l with
  | nil => intro i; exact Iff.rfl
  | cons f rest ih =>
    intro i
    cases f with
    | chap c => simp [substituteChaps, ih]
    | ctoc t2 => simp [substituteChaps, ih]
    | other k2 v2 => simp [substituteChaps, ih]

theorem keyOf_substituteChaps (g : Nat → Chap → Chap) :
    ∀ (l : List Frame) (i : Nat),
      (∀ p ∈ List.enumFrom i (extractChapters l), (g p.1 p.2).element_id = p.2.element_id) →
      (substituteChaps g i l).map keyOf = l.map keyOf := by
  intro l
  induction l with
  | nil => intro i _; rfl
  | cons f rest ih =>
    intro i h
    cases f with
    | chap c =>
      have hhead : (g i c).element_id = c.element_id := by
        have := h (i, c) (by simp [extractChapters, List.filterMap_cons, List.enumFrom])
        simpa using this
      have htail := ih (i + 1) (fun p hp => h p (by
        simp only [extractChapters, List.filterMap_cons, List.enumFrom]
        exact List.mem_cons_of_mem _ hp))
      simp [substituteChaps, keyOf, hhead, htail]
    | ctoc t =>
      have htail := ih i (fun p hp => h p (by
        simpa [extractChapters, List.filterMap_cons] using hp))
      simp [substituteChaps, htail]
    | other k2 v2 =>
      have htail := ih i (fun p hp => h p (by
        simpa [extractChapters, List.filterMap_cons] using hp))
      simp [substituteChaps, htail]

theorem updatedFrames_keys (frames : List Frame) (fs : String) :
    (updatedFrames frames fs).map keyOf = frames.map keyOf := by
  unfold updatedFrames
  apply keyOf_substituteChaps
  intro p hp
  have hp2 : (p.1, p.2) ∈ all_chapters frames := by
    simpa [all_chapters] using hp
  exact updatedChapAt_id frames fs hp2

theorem toc_foldl_mem :
    ∀ (l : List Frame) (acc : Option Ctoc) {t : Ctoc},
      l.foldl (fun acc f => match f with
        | Frame.ctoc t => some t
        | _ => acc) acc = some t →
      acc = some t ∨ Frame.ctoc t ∈ l := by
  intro l
  induction l with
  | nil => intro acc t h; exact Or.inl h
  | cons f rest ih =>
    intro acc t h
    cases f with
    | chap c =>
      rcases ih acc h with h2 | h2
      · exact Or.inl h2
      · exact Or.inr (List.mem_cons_of_mem _ h2)
    | ctoc u =>
      rcases ih (some u) h with h2 | h2
      · refine Or.inr ?_
        cases h2
        exact List.mem_cons_self _ _
      · exact Or.inr (List.mem_cons_of_mem _ h2)
    | other k v =>
      rcases ih acc h with h2 | h2
      · exact Or.inl h2
      · exact Or.inr (List.mem_cons_of_mem _ h2)

theorem toc_element_mem {frames : List Frame} {t : Ctoc}
    (h : toc_element frames = some t) : Frame.ctoc t ∈ frames := by
  rcases toc_foldl_mem frames none h with h2 | h2
  · exact absurd h2 (by simp)
  · exact h2

theorem mem_upsert {s : List Frame} {f g : Frame} (h : g ∈ upsert s f) : g ∈ s ∨ g = f := by
  unfold upsert at h
  split at h
  · obtain ⟨x, hx, he⟩ := List.mem_map.mp h
    by_cases hk : (keyOf x == keyOf f) = true
    · rw [if_pos hk] at he
      exact Or.inr he.symm
    · rw [if_neg hk] at he
      exact Or.inl (he ▸ hx)
  · rcases List.mem_append.mp h with h | h
    · exact Or.inl h
    · exact Or.inr (by simpa using h)

theorem mem_upsert_of_ne {s : List Frame} {f g : Frame}
    (hg : g ∈ s) (hk : keyOf g ≠ keyOf f) : g ∈ upsert s f := by
  unfold upsert
  split
  · exact List.mem_map.mpr ⟨g, hg, by rw [if_neg (by simp [hk])]⟩
  · exact List.mem_append.mpr (Or.inl hg)

theorem upsert_of_not_mem_keys {s : List Frame} {f : Frame}
    (h : keyOf f ∉ s.map keyOf) : upsert s f = s ++ [f] := by
  unfold upsert
  rw [if_neg]
  intro hc
  obtain ⟨g, hgs, hk⟩ := List.any_eq_true.mp hc
  exact h (List.mem_map.mpr ⟨g, hgs, beq_iff_eq.mp hk⟩)

theorem foldl_upsert_append :
    ∀ (adds s : List Frame), (s.map keyOf ++ adds.map keyOf).Nodup →
      adds.foldl upsert s = s ++ adds := by
  intro adds
  induction adds with
  | nil => intro s _; simp
  | cons a rest ih =>
    intro s h
    have hnotin : keyOf a ∉ s.map keyOf := by
      rw [List.nodup_append] at h
      intro hc
      exact h.2.2 hc (by simp)
    rw [List.foldl_cons, upsert_of_not_mem_keys hnotin,
      ih (s ++ [a]) (by simpa [List.map_append, List.append_assoc] using h)]
    simp

/-- Whether and as what a frame of the mutated id3 mapping is added to the
output store by the copy loop at main.py lines 131-139. -/
def loopPick (rem : List String) (f : Frame) : Option Frame :=
  match f with
  | Frame.chap c => if decide (c.element_id ∈ rem) then none else some (Frame.chap c)
  | Frame.ctoc _ => none
  | Frame.other k v => some (Frame.other k v)

/-- The frames the copy loop adds, in id3 iteration order. -/
def loopAdds (frames : List Frame) (fs : String) : List Frame :=
  (updatedFrames frames fs).filterMap (loopPick (chapters_to_remove frames fs))

/-- The store just after the TOC add of main.py lines 126-128. -/
def tocStore (frames : List Frame) (fs : String) : List Frame :=
  match updated_toc frames fs with
  | some t => [Frame.ctoc t]
  | none => []

theorem loop_foldl_eq (rem : List String) :
    ∀ (l : List Frame) (s : List Frame),
      l.foldl (fun s f => match f with
        | Frame.chap c => if decide (c.element_id ∈ rem) then s else upsert s (Frame.chap c)
        | Frame.ctoc _ => s
        | Frame.other k v => upsert s (Frame.other k v)) s
      = (l.filterMap (loopPick rem)).foldl upsert s := by
  intro l
  induction l with
  | nil => intro s; rfl
  | cons f rest ih =>
    intro s
    cases f with
    | chap c =>
      by_cases hrem : c.element_id ∈ rem
      · simp only [List.foldl_cons, List.filterMap_cons, loopPick, decide_eq_true hrem,
          if_true]
        exact ih s
      · simp only [List.foldl_cons, List.filterMap_cons, loopPick, decide_eq_false hrem,
          Bool.false_eq_true, if_false]
        exact ih (upsert s (Frame.chap c))
    | ctoc t =>
      simp only [List.foldl_cons, List.filterMap_cons, loopPick]
      exact ih s
    | other k v =>
      simp only [List.foldl_cons, List.filterMap_cons, loopPick]
      exact ih (upsert s (Frame.other k v))

theorem output_id3_eq (frames : List Frame) (fs : String) (d : String) :
    output_id3 frames fs d
      = upsert ((loopAdds frames fs).foldl upsert (tocStore frames fs)) (Frame.other "TDRL" d) := by
  unfold output_id3 tocStore loopAdds
  rw [loop_foldl_eq]
  cases h : updated_toc frames fs with
  | none => rfl
  | some t =>
    dsimp only
    have h2 : upsert [] (Frame.ctoc t) = [Frame.ctoc t] := by
      unfold upsert
      simp
    rw [h2]

theorem loopPick_keyOf (rem : List String) {f g : Frame}
    (h : loopPick rem f = some g) : keyOf g = keyOf f := by
  cases f with
  | chap c =>
    simp only [loopPick] at h
    split at h
    · exact absurd h (by simp)
    · cases h; rfl
  | ctoc t => exact absurd h (by simp [loopPick])
  | other k v =>
    simp only [loopPick] at h
    cases h; rfl

theorem filterMap_keys_sublist {pick : Frame → Option Frame}
    (hp : ∀ f g, pick f = some g → keyOf g = keyOf f) :
    ∀ l : List Frame, ((l.filterMap pick).map keyOf).Sublist (l.map keyOf) := by
  intro l
  induction l with
  | nil => simp
  | cons f rest ih =>
    rw [List.filterMap_cons]
    cases hf : pick f with
    | none =>
      rw [List.map_cons]
      exact ih.cons _
    | some g =>
      rw [List.map_cons, List.map_cons, hp f g hf]
      exact ih.cons₂ _

theorem loopAdds_keys_nodup (frames : List Frame) (fs : String)
    (hK : (frames.map keyOf).Nodup) : ((loopAdds frames fs).map keyOf).Nodup := by
  have hsub := filterMap_keys_sublist
    (fun f g => loopPick_keyOf (chapters_to_remove frames fs) (f := f) (g := g))
    (updatedFrames frames fs)
  rw [updatedFrames_keys] at hsub
  exact hsub.nodup hK

theorem updated_toc_some {frames : List Frame} {fs : String} {t2 : Ctoc}
    (h : updated_toc frames fs = some t2) :
    ∃ t : Ctoc, toc_element frames = some t ∧
      t2 = Ctoc.mk t.element_id (t.child_element_ids.filter
        (fun x => !decide (x ∈ chapters_to_remove frames fs))) := by
  unfold updated_toc at h
  cases ht : toc_element frames with
  | none => rw [ht] at h; exact absurd h (by simp)
  | some t =>
    rw [ht] at h
    exact ⟨t, rfl, (Option.some.inj h).symm⟩

theorem key_notin_loopAdds (frames : List Frame) (fs : String) {t : Ctoc}
    (hK : (frames.map keyOf).Nodup) (ht : toc_element frames = some t) :
    ("CTOC:" ++ t.element_id) ∉ (loopAdds frames fs).map keyOf := by
  intro hc
  obtain ⟨g, hg, hkey⟩ := List.mem_map.mp hc
  obtain ⟨f, hf, hpick⟩ := List.mem_filterMap.mp hg
  have hkg : keyOf g = keyOf f := loopPick_keyOf _ hpick
  have htoc_mem : Frame.ctoc t ∈ updatedFrames frames fs :=
    (ctoc_mem_substituteChaps _ _ _ _).mpr (toc_element_mem ht)
  have hKu : ((updatedFrames frames fs).map keyOf).Nodup := by
    rw [updatedFrames_keys]; exact hK
  have hfe : f = Frame.ctoc t := by
    refine List.inj_on_of_nodup_map hKu hf htoc_mem ?_
    rw [← hkg, hkey]
    rfl
  rw [hfe] at hpick
  exact absurd hpick (by simp [loopPick])

theorem store_keys_nodup (frames : List Frame) (fs : String)
    (hK : (frames.map keyOf).Nodup) :
    (((tocStore frames fs) ++ (loopAdds frames fs)).map keyOf).Nodup := by
  rw [List.map_append, List.nodup_append]
  refine ⟨?_, loopAdds_keys_nodup frames fs hK, ?_⟩
  · unfold tocStore
    cases h : updated_toc frames fs <;> simp
  · unfold tocStore
    cases h : updated_toc frames fs with
    | none => simp [List.Disjoint]
    | some t2 =>
      obtain ⟨t, ht, he⟩ := updated_toc_some h
      intro x hx hx2
      simp only [List.map_cons, List.map_nil, List.mem_singleton] at hx
      have hxe : x = "CTOC:" ++ t.element_id := by
        rw [hx, he]
        rfl
      rw [hxe] at hx2
      exact key_notin_loopAdds frames fs hK ht hx2

theorem store_form (frames : List Frame) (fs : String) (d : String)
    (hK : (frames.map keyOf).Nodup) :
    output_id3 frames fs d
      = upsert (tocStore frames fs ++ loopAdds frames fs) (Frame.other "TDRL" d) := by
  rw [output_id3_eq, foldl_upsert_append _ _ (by
    rw [← List.map_append]
    exact store_keys_nodup frames fs hK)]

theorem chap_key_ne_tdrl (c : Chap) : keyOf (Frame.chap c) ≠ "TDRL" := by
  intro h
  have h2 := congrArg String.length h
  rw [keyOf, String.length_append] at h2
  have h3 : ("CHAP:").length = 5 := rfl
  have h4 : ("TDRL").length = 4 := rfl
  omega

theorem ctoc_key_ne_tdrl (t : Ctoc) : keyOf (Frame.ctoc t) ≠ "TDRL" := by
  intro h
  have h2 := congrArg String.length h
  rw [keyOf, String.length_append] at h2
  have h3 : ("CTOC:").length = 5 := rfl
  have h4 : ("TDRL").length = 4 := rfl
  omega

theorem chapFrames_append (s t : List Frame) :
    chapFrames (s ++ t) = chapFrames s ++ chapFrames t :=
  List.filterMap_append _ _ _

theorem ctocFrames_append (s t : List Frame) :
    ctocFrames (s ++ t) = ctocFrames s ++ ctocFrames t :=
  List.filterMap_append _ _ _

theorem chapFrames_map_replace (v : String) :
    ∀ s : List Frame,
      chapFrames (s.map (fun g => if keyOf g == keyOf (Frame.other "TDRL" v)
        then Frame.other "TDRL" v else g)) = chapFrames s := by
  intro s
  induction s with
  | nil => rfl
  | cons g rest ih =>
    cases g with
    | chap c =>
      have hne : (keyOf (Frame.chap c) == keyOf (Frame.other "TDRL" v)) = false :=
        beq_eq_false_iff_ne.mpr (chap_key_ne_tdrl c)
      simp only [List.map_cons, hne, Bool.false_eq_true, if_false]
      simp only [chapFrames, List.filterMap_cons] at ih ⊢
      rw [ih]
    | ctoc t =>
      by_cases hk : (keyOf (Frame.ctoc t) == keyOf (Frame.other "TDRL" v)) = true
      · simp only [List.map_cons, hk, if_true]
        simp only [chapFrames, List.filterMap_cons] at ih ⊢
        exact ih
      · simp only [List.map_cons, if_neg hk]
        simp only [chapFrames, List.filterMap_cons] at ih ⊢
        exact ih
    | other k w =>
      by_cases hk : (keyOf (Frame.other k w) == keyOf (Frame.other "TDRL" v)) = true
      · simp only [List.map_cons, hk, if_true]
        simp only [chapFrames, List.filterMap_cons] at ih ⊢
        exact ih
      · simp only [List.map_cons, if_neg hk]
        simp only [chapFrames, List.filterMap_cons] at ih ⊢
        exact ih

theorem ctocFrames_map_replace (v : String) :
    ∀ s : List Frame,
      ctocFrames (s.map (fun g => if keyOf g == keyOf (Frame.other "TDRL" v)
        then Frame.other "TDRL" v else g)) = ctocFrames s := by
  intro s
  induction s with
  | nil => rfl
  | cons g rest ih =>
    cases g with
    | ctoc t =>
      have hne : (keyOf (Frame.ctoc t) == keyOf (Frame.other "TDRL" v)) = false :=
        beq_eq_false_iff_ne.mpr (ctoc_key_ne_tdrl t)
      simp only [List.map_cons, hne, Bool.false_eq_true, if_false]
      simp only [ctocFrames, List.filterMap_cons] at ih ⊢
      rw [ih]
    | chap c =>
      by_cases hk : (keyOf (Frame.chap c) == keyOf (Frame.other "TDRL" v)) = true
      · simp only [List.map_cons, hk, if_true]
        simp only [ctocFrames, List.filterMap_cons] at ih ⊢
        exact ih
      · simp only [List.map_cons, if_neg hk]
        simp only [ctocFrames, List.filterMap_cons] at ih ⊢
        exact ih
    | other k w =>
      by_cases hk : (keyOf (Frame.other k w) == keyOf (Frame.other "TDRL" v)) = true
      · simp only [List.map_cons, hk, if_true]
        simp only [ctocFrames, List.filterMap_cons] at ih ⊢
        exact ih
      · simp only [List.map_cons, if_neg hk]
        simp only [ctocFrames, List.filterMap_cons] at ih ⊢
        exact ih

theorem chapFrames_upsert_tdrl (s : List Frame) (v : String) :
    chapFrames (upsert s (Frame.other "TDRL" v)) = chapFrames s := by
  unfold upsert
  split
  · exact chapFrames_map_replace v s
  · rw [chapFrames_append]
    simp [chapFrames]

theorem ctocFrames_upsert_tdrl (s : List Frame) (v : String) :
    ctocFrames (upsert s (Frame.other "TDRL" v)) = ctocFrames s := by
  unfold upsert
  split
  · exact ctocFrames_map_replace v s
  · rw [ctocFrames_append]
    simp [ctocFrames]

theorem chapFrames_filterMap_pick (rem : List String) :
    ∀ l : List Frame,
      chapFrames (l.filterMap (loopPick rem))
        = (extractChapters l).filter (fun c => !decide (c.element_id ∈ rem)) := by
  intro l
  induction l with
  | nil => rfl
  | cons f rest ih =>
    cases f with
    | chap c =>
      by_cases hrem : c.element_id ∈ rem
      · simp only [List.filterMap_cons, loopPick, decide_eq_true hrem, if_true,
          extractChapters, List.filter_cons, Bool.not_true, Bool.false_eq_true]
        simpa [extractChapters] using ih
      · simp only [List.filterMap_cons, loopPick, decide_eq_false hrem,
          Bool.false_eq_true, if_false, extractChapters, List.filter_cons, Bool.not_false]
        simp only [chapFrames, List.filterMap_cons]
        simpa [extractChapters, chapFrames] using ih
    | ctoc t =>
      simp only [List.filterMap_cons, loopPick, extractChapters]
      simpa [extractChapters] using ih
    | other k v =>
      simp only [List.filterMap_cons, loopPick, extractChapters]
      simp only [chapFrames, List.filterMap_cons]
      simpa [extractChapters, chapFrames] using ih

theorem ctocFrames_filterMap_pick (rem : List String) :
    ∀ l : List Frame, ctocFrames (l.filterMap (loopPick rem)) = [] := by
  intro l
  induction l with
  | nil => rfl
  | cons f rest ih =>
    cases f with
    | chap c =>
      by_cases hrem : c.element_id ∈ rem
      · simp only [List.filterMap_cons, loopPick, decide_eq_true hrem, if_true]
        exact ih
      · simp only [List.filterMap_cons, loopPick, decide_eq_false hrem,
          Bool.false_eq_true, if_false]
        simpa [ctocFrames] using ih
    | ctoc t =>
      simp only [List.filterMap_cons, loopPick]
      exact ih
    | other k v =>
      simp only [List.filterMap_cons, loopPick]
      simpa [ctocFrames] using ih

theorem mem_foldl_upsert :
    ∀ (adds s : List Frame) {g : Frame}, g ∈ adds.foldl upsert s → g ∈ s ∨ g ∈ adds := by
  intro adds
  induction adds with
  | nil => intro s g h; exact Or.inl h
  | cons a rest ih =>
    intro s g h
    rcases ih (upsert s a) h with h2 | h2
    · rcases mem_upsert h2 with h3 | h3
      · exact Or.inl h3
      · exact Or.inr (h3 ▸ List.mem_cons_self _ _)
    · exact Or.inr (List.mem_cons_of_mem _ h2)

theorem mem_output_id3 {frames : List Frame} {fs d : String} {g : Frame}
    (hg : g ∈ output_id3 frames fs d) :
    (∃ t, updated_toc frames fs = some t ∧ g = Frame.ctoc t) ∨
    (∃ c : Chap, g = Frame.chap c ∧ c.element_id ∉ chapters_to_remove frames fs) ∨
    (∃ k v : String, g = Frame.other k v) := by
  rw [output_id3_eq] at hg
  rcases mem_upsert hg with hg | hg
  · rcases mem_foldl_upsert _ _ hg with hg | hg
    · unfold tocStore at hg
      cases h : updated_toc frames fs with
      | none => rw [h] at hg; exact absurd hg (by simp)
      | some t =>
        rw [h] at hg
        simp only [List.mem_singleton] at hg
        exact Or.inl ⟨t, rfl, hg⟩
    · obtain ⟨f, _, hpick⟩ := List.mem_filterMap.mp hg
      cases f with
      | chap c =>
        by_cases hrem : c.element_id ∈ chapters_to_remove frames fs
        · simp only [loopPick, decide_eq_true hrem, if_true] at hpick
          exact absurd hpick (by simp)
        · simp only [loopPick, decide_eq_false hrem, Bool.false_eq_true, if_false] at hpick
          cases hpick
          exact Or.inr (Or.inl ⟨c, rfl, hrem⟩)
      | ctoc t => exact absurd hpick (by simp [loopPick])
      | other k v =>
        simp only [loopPick] at hpick
        cases hpick
        exact Or.inr (Or.inr ⟨k, v, rfl⟩)
  · exact Or.inr (Or.inr ⟨"TDRL", d, hg⟩)

/-! ### Splice length (claim C6 machinery) -/

theorem pydubSlice_length_of_range (l : List Nat) (a b : Int)
    (h0 : 0 ≤ a) (hab : a ≤ b) (hb : b ≤ (l.length : Int)) :
    (pydubSlice l a b).length = (b - a).toNat := by
  simp only [pydubSlice, pySlice]
  rw [List.length_take, List.length_drop]
  split_ifs <;> omega

theorem spliceAudio_foldl_length (buf : List Nat) :
    ∀ (chs : List Chap) (acc : List Nat),
      (chs.foldl (fun acc c => acc ++ pydubSlice buf c.start_time c.end_time) acc).length
        = acc.length
          + (chs.map (fun c => (pydubSlice buf c.start_time c.end_time).length)).sum := by
  intro chs
  induction chs with
  | nil => intro acc; simp
  | cons c rest ih =>
    intro acc
    rw [List.foldl_cons, ih]
    simp only [List.length_append, List.map_cons, List.sum_cons]
    omega

theorem sliceSum_eq (buf : List Nat) :
    ∀ (chs : List Chap),
      (∀ c ∈ chs, 0 ≤ c.start_time ∧ c.start_time ≤ c.end_time
        ∧ c.end_time ≤ (buf.length : Int)) →
      (chs.map (fun c => c.end_time - c.start_time)).sum
        = ((chs.map (fun c => (pydubSlice buf c.start_time c.end_time).length)).sum : Int) := by
  intro chs
  induction chs with
  | nil => intro _; simp
  | cons c rest ih =>
    intro h
    have hc := h c (List.mem_cons_self _ _)
    have hrest := ih (fun x hx => h x (List.mem_cons_of_mem _ hx))
    have hlen := pydubSlice_length_of_range buf c.start_time c.end_time hc.1 hc.2.1 hc.2.2
    simp only [List.map_cons, List.sum_cons]
    rw [hlen, Nat.cast_add, Int.toNat_of_nonneg (by omega), hrest]

/-! ### Monotone retiming (claim C7 machinery) -/

theorem adjust_bound (fs : String) :
    ∀ (l : List IChap) (t e : Int),
      (∀ q ∈ l, e ≤ q.2.start_time) →
      (∀ q ∈ l, q.2.start_time ≤ q.2.end_time) →
      l.Pairwise (fun a b => a.2.end_time ≤ b.2.start_time) →
      ∀ p ∈ adjustPairs fs t l, matchesFilter fs (chapTitle p.1.2) = false →
        p.2 - t ≤ p.1.2.start_time - e := by
  intro l
  induction l with
  | nil => intro t e _ _ _ p hp; simp [adjustPairs] at hp
  | cons q rest ih =>
    intro t e hstart hwf hpair p hp hnm
    rw [List.pairwise_cons] at hpair
    simp only [adjustPairs] at hp
    have he := hstart q (List.mem_cons_self _ _)
    have hq := hwf q (List.mem_cons_self _ _)
    rcases List.mem_cons.mp hp with hp | hp
    · subst hp
      simp only [hnm, Bool.false_eq_true, if_false] at hnm ⊢
      omega
    · have hih := ih (if matchesFilter fs (chapTitle q.2)
          then t + (q.2.end_time - q.2.start_time) else t) q.2.end_time
        (fun x hx => hpair.1 x hx)
        (fun x hx => hwf x (List.mem_cons_of_mem _ hx))
        hpair.2 p hp hnm
      by_cases hm : matchesFilter fs (chapTitle q.2) = true
      · rw [if_pos hm] at hih
        omega
      · rw [if_neg hm] at hih
        omega

theorem pairwise_retimed (fs : String) (R : List String) :
    ∀ (l : List IChap) (t : Int),
      (∀ q ∈ l, matchesFilter fs (chapTitle q.2) = true → q.2.element_id ∈ R) →
      (∀ q ∈ l, q.2.start_time ≤ q.2.end_time) →
      l.Pairwise (fun a b => a.2.end_time ≤ b.2.start_time) →
      ((adjustPairs fs t l).map
        (fun p => ((p.1.1, retimeChap R p.1.2 p.2) : IChap))).Pairwise
        (fun a b => a.2.element_id ∉ R → b.2.element_id ∉ R →
          a.2.end_time ≤ b.2.start_time) := by
  intro l
  induction l with
  | nil => intro t _ _ _; simp [adjustPairs]
  | cons q rest ih =>
    intro t hR hwf hpair
    rw [List.pairwise_cons] at hpair
    simp only [adjustPairs, List.map_cons]
    rw [List.pairwise_cons]
    refine ⟨?_, ih _ (fun x hx hmx => hR x (List.mem_cons_of_mem _ hx) hmx)
      (fun x hx => hwf x (List.mem_cons_of_mem _ hx)) hpair.2⟩
    intro y hy hqnot hynot
    obtain ⟨p, hp, hpe⟩ := List.mem_map.mp hy
    have hqid : q.2.element_id ∉ R := by
      simpa [retimeChap_id] using hqnot
    have hpid : p.1.2.element_id ∉ R := by
      rw [← hpe] at hynot
      simpa [retimeChap_id] using hynot
    have hqnm : matchesFilter fs (chapTitle q.2) = false := by
      cases hmm : matchesFilter fs (chapTitle q.2)
      · rfl
      · exact absurd (hR q (List.mem_cons_self _ _) hmm) hqid
    have hpnm : matchesFilter fs (chapTitle p.1.2) = false := by
      cases hmm : matchesFilter fs (chapTitle p.1.2)
      · rfl
      · exact absurd (hR p.1 (List.mem_cons_of_mem _ (mem_adjustPairs_fst fs hp)) hmm) hpid
    have ht2 : (if matchesFilter fs (chapTitle q.2)
        then t + (q.2.end_time - q.2.start_time) else t) = t := by
      rw [if_neg (by simp [hqnm])]
    rw [ht2] at hy hp
    have hbound := adjust_bound fs rest t q.2.end_time
      (fun x hx => hpair.1 x hx)
      (fun x hx => hwf x (List.mem_cons_of_mem _ hx))
      hpair.2 p hp hpnm
    rw [← hpe]
    simp only [ht2]
    unfold retimeChap
    rw [if_neg hqid, if_neg hpid]
    simp only
    omega

/-! ### Remaining helpers for the claim theorems -/

theorem containsSub_nil_left : ∀ hay : List Char, containsSub [] hay = true := by
  intro hay
  cases hay <;> simp [containsSub, isPrefList]

theorem matches_empty (s : String) : matchesFilter "" s = true := by
  unfold matchesFilter
  have h : (lowerStr "").toList = [] := rfl
  rw [h]
  exact containsSub_nil_left _

theorem mem_chapFrames {s : List Frame} {c : Chap} :
    c ∈ chapFrames s ↔ Frame.chap c ∈ s := by
  unfold chapFrames
  rw [List.mem_filterMap]
  constructor
  · rintro ⟨f, hf, hm⟩
    cases f with
    | chap c2 =>
      simp only [Option.some.injEq] at hm
      rw [← hm]
      exact hf
    | ctoc t => simp at hm
    | other k v => simp at hm
  · intro h
    exact ⟨Frame.chap c, h, rfl⟩

theorem mem_ctocFrames {s : List Frame} {t : Ctoc} :
    t ∈ ctocFrames s ↔ Frame.ctoc t ∈ s := by
  unfold ctocFrames
  rw [List.mem_filterMap]
  constructor
  · rintro ⟨f, hf, hm⟩
    cases f with
    | chap c2 => simp at hm
    | ctoc t2 =>
      simp only [Option.some.injEq] at hm
      rw [← hm]
      exact hf
    | other k v => simp at hm
  · intro h
    exact ⟨Frame.ctoc t, h, rfl⟩

theorem exists_mem_enumFrom {a : α} :
    ∀ {l : List α}, a ∈ l → ∀ n : Nat, ∃ i, (i, a) ∈ List.enumFrom n l := by
  intro l
  induction l with
  | nil => intro h; simp at h
  | cons x xs ih =>
    intro h n
    rcases List.mem_cons.mp h with h | h
    · exact ⟨n, by simp [List.enumFrom, h]⟩
    · obtain ⟨i, hi⟩ := ih h (n + 1)
      exact ⟨i, by simp only [List.enumFrom]; exact List.mem_cons_of_mem _ hi⟩

theorem all_chapters_ids (frames : List Frame) :
    (all_chapters frames).map (fun p : IChap => p.2.element_id)
      = (extractChapters frames).map Chap.element_id := by
  unfold all_chapters
  have h : (fun p : IChap => p.2.element_id) = Chap.element_id ∘ Prod.snd := rfl
  rw [h, ← List.map_map, List.enum_map_snd]

theorem extract_updated_ids (frames : List Frame) (fs : String) :
    (extractChapters (updatedFrames frames fs)).map Chap.element_id
      = (extractChapters frames).map Chap.element_id := by
  rw [extract_updatedFrames, List.map_map]
  have h : ∀ p ∈ all_chapters frames,
      (Chap.element_id ∘ fun p : IChap => updatedChapAt frames fs p.1 p.2) p
        = (fun p : IChap => p.2.element_id) p := by
    intro p hp
    exact updatedChapAt_id frames fs (by simpa using hp)
  rw [List.map_congr_left h, all_chapters_ids]

theorem filter_key_eq_nil {s : List Frame} {K : String}
    (h : ∀ g ∈ s, keyOf g ≠ K) : s.filter (fun g => keyOf g == K) = [] :=
  List.filter_eq_nil_iff.mpr (fun a ha => by simp [h a ha])

theorem filter_map_replace (f : Frame) :
    ∀ s : List Frame, (s.map keyOf).Nodup → keyOf f ∈ s.map keyOf →
      (s.map (fun g => if keyOf g == keyOf f then f else g)).filter
        (fun g => keyOf g == keyOf f) = [f] := by
  intro s
  induction s with
  | nil => intro _ h; simp at h
  | cons g rest ih =>
    intro hn hmem
    simp only [List.map_cons, List.nodup_cons] at hn
    by_cases hk : (keyOf g == keyOf f) = true
    · have hkeq : keyOf g = keyOf f := beq_iff_eq.mp hk
      have hno : ∀ x ∈ rest, keyOf x ≠ keyOf f := by
        intro x hx he
        exact hn.1 (List.mem_map.mpr ⟨x, hx, he.trans hkeq.symm⟩)
      have hmap : rest.map (fun g2 => if keyOf g2 == keyOf f then f else g2) = rest := by
        have hcong : ∀ x ∈ rest, (if keyOf x == keyOf f then f else x) = id x := by
          intro x hx
          exact if_neg (by simp [hno x hx])
        rw [List.map_congr_left hcong, List.map_id]
      rw [List.map_cons, if_pos hk, hmap, List.filter_cons,
        filter_key_eq_nil hno]
      simp
    · have hmem2 : keyOf f ∈ rest.map keyOf := by
        rcases List.mem_cons.mp hmem with h | h
        · exact absurd (by simp [h.symm]) hk
        · exact h
      rw [List.map_cons, if_neg hk, List.filter_cons]
      simp only [hk]
      exact ih hn.2 hmem2

theorem filter_key_upsert (s : List Frame) (f : Frame) (hn : (s.map keyOf).Nodup) :
    (upsert s f).filter (fun g => keyOf g == keyOf f) = [f] := by
  unfold upsert
  split
  · rename_i h
    obtain ⟨g, hg, hk⟩ := List.any_eq_true.mp h
    exact filter_map_replace f s hn (List.mem_map.mpr ⟨g, hg, beq_iff_eq.mp hk⟩)
  · rename_i h
    rw [List.filter_append]
    have hno : ∀ g ∈ s, keyOf g ≠ keyOf f := by
      intro g hg he
      exact h (List.any_eq_true.mpr ⟨g, hg, by simp [he]⟩)
    rw [filter_key_eq_nil hno]
    simp

/-! ### Claim theorems -/

/-- Concrete input for claim C1: the three-chapter scenario of the
specification, scaled to milliseconds 0-6 over a six-sample buffer. -/
def exC1fr : List Frame :=
  [Frame.chap ⟨"c1", 0, 1, [("TIT2", "Intro")]⟩,
   Frame.chap ⟨"c2", 1, 4, [("TIT2", "Ad: Buy now")]⟩,
   Frame.chap ⟨"c3", 4, 6, [("TIT2", "Outro")]⟩]

/-- The audio buffer for the C1 scenario. -/
def exC1buf : List Nat := [10, 11, 12, 13, 14, 15]

/-- C1: the claim says the splicer slices the original buffer at the
retained chapters ORIGINAL offsets and never at the shifted ones.  The
code retimes the chapter objects in place before splicing, so the splice
at the failing input keeps the removed Ad audio ([10,11,12]) instead of
the original-offset concatenation Intro ++ Outro ([10,14,15]): the code
contradicts the documented contract of the splicer. -/
theorem C1_splicer_uses_shifted_offsets :
    new_audio_segment exC1fr "Ad" exC1buf = [10, 11, 12]
    ∧ pydubSlice exC1buf 0 1 ++ pydubSlice exC1buf 4 6 = [10, 14, 15]
    ∧ ¬ new_audio_segment exC1fr "Ad" exC1buf
        = pydubSlice exC1buf 0 1 ++ pydubSlice exC1buf 4 6 := by
  refine ⟨by decide, by decide, by decide⟩

/-- C4 (amended): when the input has no TOC entry the engine proceeds
without error, but the output tag set contains NO TOC frame at all — no
default TOC id is synthesized, contrary to the claim. -/
theorem C4_no_toc_means_no_output_toc (frames : List Frame) (fs d : String)
    (h : toc_element frames = none) :
    ctocFrames (output_id3 frames fs d) = [] := by
  unfold ctocFrames
  rw [List.filterMap_eq_nil_iff]
  intro f hf
  rcases mem_output_id3 hf with ⟨t, htoc, he⟩ | ⟨c, he, _⟩ | ⟨k, v, he⟩
  · exfalso
    unfold updated_toc at htoc
    rw [h] at htoc
    simp at htoc
  · rw [he]
  · rw [he]

/-- Concrete input for claim C4: one chapter, no TOC frame. -/
def exC4fr : List Frame := [Frame.chap ⟨"intro", 0, 5, [("TIT2", "Hello")]⟩]

/-- C4 counterexample: on an input without a TOC the output tag set holds
no TOC frame, refuting the claim that a TOC entry with a synthesized
default id is present in the output. -/
theorem C4_counterexample :
    ctocFrames (output_id3 exC4fr "z" "2026-10-12") = [] := by decide

/-- C4 witness: the amended theorem applied at the concrete input. -/
theorem C4_no_toc_means_no_output_toc_witness :
    toc_element exC4fr = none
    ∧ ctocFrames (output_id3 exC4fr "q" "2026-10-12") = [] :=
  ⟨by decide, C4_no_toc_means_no_output_toc exC4fr "q" "2026-10-12" (by decide)⟩

/-- C5: the chapter at timeline index i is left untouched when its id is
in the removal list, and otherwise has both offsets shifted down by the
total duration of the removed chapters with timeline index at most i,
accumulated in ascending start-time order. -/
theorem C5_cumulative_shift (frames : List Frame) (fs : String)
    (hids : ((all_chapters frames).map (fun q : IChap => q.2.element_id)).Nodup)
    (i : Nat) (h1 : i < (sorted_chapters frames).length)
    (h2 : i < (updated_chapters frames fs).length) :
    (updated_chapters frames fs).get ⟨i, h2⟩
      = (((sorted_chapters frames).get ⟨i, h1⟩).1,
         if ((sorted_chapters frames).get ⟨i, h1⟩).2.element_id ∈ chapters_to_remove frames fs
         then ((sorted_chapters frames).get ⟨i, h1⟩).2
         else Chap.mk ((sorted_chapters frames).get ⟨i, h1⟩).2.element_id
           (((sorted_chapters frames).get ⟨i, h1⟩).2.start_time - removedShift frames fs i)
           (((sorted_chapters frames).get ⟨i, h1⟩).2.end_time - removedShift frames fs i)
           ((sorted_chapters frames).get ⟨i, h1⟩).2.sub_frames) := by
  rw [List.get_eq_getElem, List.get_eq_getElem]
  have h3 : i < (adjusted_chapters frames fs).length := by
    unfold adjusted_chapters
    rw [adjustPairs_length]
    exact h1
  have hmap : (updated_chapters frames fs)[i]
      = ((fun p : IChap × Int =>
          ((p.1.1, retimeChap (chapters_to_remove frames fs) p.1.2 p.2) : IChap))
        ((adjusted_chapters frames fs)[i])) := by
    unfold updated_chapters
    rw [List.getElem_map]
  rw [hmap]
  have hadj : (adjusted_chapters frames fs)[i]
      = ((sorted_chapters frames)[i],
         0 + msum fs ((sorted_chapters frames).take (i + 1))) := by
    unfold adjusted_chapters
    exact adjustPairs_getElem fs _ 0 i h1 (by rw [adjustPairs_length]; exact h1)
  rw [hadj]
  simp only [zero_add]
  unfold retimeChap
  by_cases hmem : ((sorted_chapters frames)[i]).2.element_id ∈ chapters_to_remove frames fs
  · rw [if_pos hmem, if_pos hmem]
  · rw [if_neg hmem, if_neg hmem, removedShift_eq_msum frames fs i hids]

/-- Concrete input for the C5 witness: an Ad chapter followed by a kept
chapter. -/
def wC5fr : List Frame :=
  [Frame.chap ⟨"a", 0, 3, [("TIT2", "Ad")]⟩,
   Frame.chap ⟨"b", 3, 5, [("TIT2", "Keep")]⟩]

/-- C5 witness: the retiming theorem applied at index 1 of the concrete
two-chapter input. -/
theorem C5_cumulative_shift_witness :
    ((all_chapters wC5fr).map (fun q : IChap => q.2.element_id)).Nodup
    ∧ ∃ (h1 : 1 < (sorted_chapters wC5fr).length)
        (h2 : 1 < (updated_chapters wC5fr "ad").length),
      (updated_chapters wC5fr "ad").get ⟨1, h2⟩
        = (((sorted_chapters wC5fr).get ⟨1, h1⟩).1,
           if ((sorted_chapters wC5fr).get ⟨1, h1⟩).2.element_id ∈ chapters_to_remove wC5fr "ad"
           then ((sorted_chapters wC5fr).get ⟨1, h1⟩).2
           else Chap.mk ((sorted_chapters wC5fr).get ⟨1, h1⟩).2.element_id
             (((sorted_chapters wC5fr).get ⟨1, h1⟩).2.start_time - removedShift wC5fr "ad" 1)
             (((sorted_chapters wC5fr).get ⟨1, h1⟩).2.end_time - removedShift wC5fr "ad" 1)
             ((sorted_chapters wC5fr).get ⟨1, h1⟩).2.sub_frames) :=
  ⟨by decide, by decide, by decide,
    C5_cumulative_shift wC5fr "ad" (by decide) 1 (by decide) (by decide)⟩

/-- C6: for a non-degenerate input — at least one retained chapter, and
every retained chapter sliced inside the buffer — the summed retained
durations (as the splicer sees them) equal the output audio duration. -/
theorem C6_duration_conserved (frames : List Frame) (fs : String) (buf : List Nat)
    (hne : valid_chapters frames fs ≠ [])
    (hin : ∀ c ∈ valid_chapters frames fs,
      0 ≤ c.start_time ∧ c.start_time ≤ c.end_time ∧ c.end_time ≤ (buf.length : Int)) :
    ((valid_chapters frames fs).map (fun c => c.end_time - c.start_time)).sum
      = ((new_audio_segment frames fs buf).length : Int) := by
  unfold new_audio_segment spliceAudio
  rw [spliceAudio_foldl_length, sliceSum_eq buf _ hin]
  simp

/-- Concrete input for the C6 witness. -/
def wC6fr : List Frame :=
  [Frame.chap ⟨"a", 0, 2, [("TIT2", "One")]⟩,
   Frame.chap ⟨"b", 2, 3, [("TIT2", "Ad break")]⟩]

/-- C6 witness: duration conservation at a concrete input with one
removed and one retained chapter over a three-sample buffer. -/
theorem C6_duration_conserved_witness :
    valid_chapters wC6fr "ad" ≠ []
    ∧ (∀ c ∈ valid_chapters wC6fr "ad",
        0 ≤ c.start_time ∧ c.start_time ≤ c.end_time
          ∧ c.end_time ≤ (([7, 8, 9] : List Nat).length : Int))
    ∧ ((valid_chapters wC6fr "ad").map (fun c => c.end_time - c.start_time)).sum
        = ((new_audio_segment wC6fr "ad" [7, 8, 9]).length : Int) :=
  ⟨by decide, by decide,
    C6_duration_conserved wC6fr "ad" [7, 8, 9] (by decide) (by decide)⟩

/-- C7: when the timeline is non-overlapping (and well-formed, start at
most end), the retained chapters, after retiming, are still monotone and
non-overlapping in timeline order: each retained end is at most the next
retained start. -/
theorem C7_monotonic_retiming (frames : List Frame) (fs : String)
    (hord : (sorted_chapters frames).Pairwise (fun a b => a.2.end_time ≤ b.2.start_time))
    (hwf : ∀ q ∈ sorted_chapters frames, q.2.start_time ≤ q.2.end_time) :
    ((updated_chapters frames fs).filter
      (fun q => !decide (q.2.element_id ∈ chapters_to_remove frames fs))).Pairwise
      (fun a b => a.2.end_time ≤ b.2.start_time) := by
  have hR : ∀ q ∈ sorted_chapters frames,
      matchesFilter fs (chapTitle q.2) = true →
        q.2.element_id ∈ chapters_to_remove frames fs :=
    fun q hq hm => List.mem_map.mpr ⟨q, List.mem_filter.mpr ⟨hq, hm⟩, rfl⟩
  have hpw := pairwise_retimed fs (chapters_to_remove frames fs)
    (sorted_chapters frames) 0 hR hwf hord
  unfold updated_chapters adjusted_chapters
  have hf := hpw.filter (fun q : IChap =>
    !decide (q.2.element_id ∈ chapters_to_remove frames fs))
  refine hf.imp_of_mem ?_
  intro a b ha hb hrel
  have ha2 : a.2.element_id ∉ chapters_to_remove frames fs := by
    have := (List.mem_filter.mp ha).2
    simpa using this
  have hb2 : b.2.element_id ∉ chapters_to_remove frames fs := by
    have := (List.mem_filter.mp hb).2
    simpa using this
  exact hrel ha2 hb2

/-- Concrete input for the C7 witness. -/
def wC7fr : List Frame :=
  [Frame.chap ⟨"a", 0, 2, [("TIT2", "Keep one")]⟩,
   Frame.chap ⟨"b", 2, 6, [("TIT2", "Ad spot")]⟩,
   Frame.chap ⟨"c", 6, 9, [("TIT2", "Keep two")]⟩]

/-- C7 witness: monotone retiming at a concrete non-overlapping input. -/
theorem C7_monotonic_retiming_witness :
    (sorted_chapters wC7fr).Pairwise (fun a b => a.2.end_time ≤ b.2.start_time)
    ∧ (∀ q ∈ sorted_chapters wC7fr, q.2.start_time ≤ q.2.end_time)
    ∧ ((updated_chapters wC7fr "ad").filter
        (fun q => !decide (q.2.element_id ∈ chapters_to_remove wC7fr "ad"))).Pairwise
        (fun a b => a.2.end_time ≤ b.2.start_time) :=
  ⟨by decide, by decide,
    C7_monotonic_retiming wC7fr "ad" (by decide) (by decide)⟩

/-- Concrete input for claim C2: a single retained chapter whose id is
not of the ch-numbered form. -/
def exC2fr : List Frame := [Frame.chap ⟨"intro", 0, 5, [("TIT2", "Hello")]⟩]

/-- C2 counterexample: the single retained chapter keeps its original id
"intro" in the output; the output chapter id list is not the claimed
["ch1"]. -/
theorem C2_counterexample :
    (chapFrames (output_id3 exC2fr "z" "2026-10-12")).map Chap.element_id = ["intro"]
    ∧ ¬ (chapFrames (output_id3 exC2fr "z" "2026-10-12")).map Chap.element_id
        = ["ch1"] := by
  refine ⟨by decide, by decide⟩

/-- C2 (amended): the output chapter ids are exactly the ORIGINAL element
ids of the non-removed chapters, in input order — the engine never
renumbers ids.  Hypothesis: the input frame hash keys are distinct, as
they are in any decoded ID3 mapping. -/
theorem C2_ids_preserved (frames : List Frame) (fs d : String)
    (hK : (frames.map keyOf).Nodup) :
    (chapFrames (output_id3 frames fs d)).map Chap.element_id
      = ((extractChapters frames).map Chap.element_id).filter
          (fun x => !decide (x ∈ chapters_to_remove frames fs)) := by
  rw [store_form frames fs d hK, chapFrames_upsert_tdrl, chapFrames_append]
  have h1 : chapFrames (tocStore frames fs) = [] := by
    unfold tocStore
    cases updated_toc frames fs <;> rfl
  rw [h1, List.nil_append]
  unfold loopAdds
  rw [chapFrames_filterMap_pick]
  have h3 : (fun c : Chap => !decide (c.element_id ∈ chapters_to_remove frames fs))
      = ((fun x => !decide (x ∈ chapters_to_remove frames fs)) ∘ Chap.element_id) := rfl
  rw [h3, ← List.filter_map, extract_updated_ids]

/-- C2 witness: the amended theorem applied at the concrete input. -/
theorem C2_ids_preserved_witness :
    ((exC2fr.map keyOf).Nodup)
    ∧ (chapFrames (output_id3 exC2fr "z" "2026-10-12")).map Chap.element_id
        = ((extractChapters exC2fr).map Chap.element_id).filter
            (fun x => !decide (x ∈ chapters_to_remove exC2fr "z")) :=
  ⟨by decide, C2_ids_preserved exC2fr "z" "2026-10-12" (by decide)⟩

/-- Concrete input for claim C3: a retained chapter and a TOC that lists
it under its original id. -/
def exC3fr : List Frame :=
  [Frame.chap ⟨"intro", 0, 5, [("TIT2", "Hello")]⟩,
   Frame.ctoc ⟨"toc", ["intro"]⟩]

/-- C3 counterexample: the output TOC child ids are the original filtered
ids (["intro"]), not the claimed sequential run ["ch1"]. -/
theorem C3_counterexample :
    (ctocFrames (output_id3 exC3fr "z" "2026-10-12")).map Ctoc.child_element_ids
      = [["intro"]]
    ∧ ¬ (ctocFrames (output_id3 exC3fr "z" "2026-10-12")).map Ctoc.child_element_ids
        = [["ch1"]] := by
  refine ⟨by decide, by decide⟩

/-- C3 (amended): when the input has a TOC and the frame hash keys are
distinct, the output tag set has exactly one TOC frame; its id is the
original TOC id and its child ids are the ORIGINAL child ids with the
removed ids dropped, in their original order — not a regenerated
ch1..chN run. -/
theorem C3_toc_filtered (frames : List Frame) (fs d : String) (t : Ctoc)
    (hK : (frames.map keyOf).Nodup) (ht : toc_element frames = some t) :
    ctocFrames (output_id3 frames fs d)
      = [Ctoc.mk t.element_id (t.child_element_ids.filter
          (fun x => !decide (x ∈ chapters_to_remove frames fs)))] := by
  rw [store_form frames fs d hK, ctocFrames_upsert_tdrl, ctocFrames_append]
  unfold loopAdds
  rw [ctocFrames_filterMap_pick]
  unfold tocStore
  have hut : updated_toc frames fs
      = some (Ctoc.mk t.element_id (t.child_element_ids.filter
          (fun x => !decide (x ∈ chapters_to_remove frames fs)))) := by
    unfold updated_toc
    rw [ht]
    rfl
  rw [hut]
  rfl

/-- C3 witness: the amended theorem applied at the concrete input. -/
theorem C3_toc_filtered_witness :
    ((exC3fr.map keyOf).Nodup)
    ∧ toc_element exC3fr = some (Ctoc.mk "toc" ["intro"])
    ∧ ctocFrames (output_id3 exC3fr "z" "2026-10-12")
        = [Ctoc.mk "toc" (["intro"].filter
            (fun x => !decide (x ∈ chapters_to_remove exC3fr "z")))] :=
  ⟨by decide, by decide,
    C3_toc_filtered exC3fr "z" "2026-10-12" (Ctoc.mk "toc" ["intro"])
      (by decide) (by decide)⟩

/-- C8 (amended): with the empty filter every chapter matches, so no
chapter is retained, the spliced audio is empty, and nothing raises; the
output TOC (when one exists) keeps exactly those original child ids that
are not the element id of ANY chapter — zero children whenever every
child id refers to a chapter, but dangling child ids survive. -/
theorem C8_empty_filter_removes_all (frames : List Frame) (buf : List Nat) (d : String) :
    valid_chapters frames "" = []
    ∧ new_audio_segment frames "" buf = []
    ∧ ∀ t2 ∈ ctocFrames (output_id3 frames "" d),
        ∃ t : Ctoc, toc_element frames = some t ∧
          t2.child_element_ids = t.child_element_ids.filter
            (fun x => !decide (x ∈ (extractChapters frames).map Chap.element_id)) := by
  have hmem : ∀ x : String, x ∈ chapters_to_remove frames ""
      ↔ x ∈ (extractChapters frames).map Chap.element_id := by
    intro x
    unfold chapters_to_remove
    rw [List.filter_eq_self.mpr (fun a _ => matches_empty _), ← all_chapters_ids frames]
    exact (sorted_ids_perm frames).mem_iff
  have hvalid : valid_chapters frames "" = [] := by
    unfold valid_chapters
    have hnil : (extractChapters (updatedFrames frames "")).filter
        (fun c => !decide (c.element_id ∈ chapters_to_remove frames "")) = [] := by
      rw [List.filter_eq_nil_iff]
      intro c hc
      have h3 : c.element_id ∈ (extractChapters (updatedFrames frames "")).map
          Chap.element_id := List.mem_map.mpr ⟨c, hc, rfl⟩
      rw [extract_updated_ids] at h3
      simp [(hmem c.element_id).mpr h3]
    rw [hnil]
    rfl
  refine ⟨hvalid, ?_, ?_⟩
  · unfold new_audio_segment
    rw [hvalid]
    rfl
  · intro t2 ht2
    have hmem2 : Frame.ctoc t2 ∈ output_id3 frames "" d := mem_ctocFrames.mp ht2
    rcases mem_output_id3 hmem2 with ⟨tm, hu, he⟩ | ⟨c, he, _⟩ | ⟨k, v, he⟩
    · obtain ⟨t, ht, hform⟩ := updated_toc_some hu
      have ht2e : t2 = tm := by
        injection he with h
      refine ⟨t, ht, ?_⟩
      rw [ht2e, hform]
      show t.child_element_ids.filter
        (fun x => !decide (x ∈ chapters_to_remove frames "")) = _
      apply List.filter_congr
      intro x _
      rw [decide_eq_decide.mpr (hmem x)]
    · exact absurd he (by simp)
    · exact absurd he (by simp)

/-- Concrete input for claim C8: one chapter plus a TOC that also lists a
dangling child id. -/
def exC8fr : List Frame :=
  [Frame.chap ⟨"a", 0, 2, [("TIT2", "T")]⟩,
   Frame.ctoc ⟨"toc", ["a", "ghost"]⟩]

/-- C8 counterexample: with the empty filter, the concrete input keeps no
chapter, yet the output TOC has one child ("ghost", a dangling id from
the input TOC) — not the claimed zero children. -/
theorem C8_counterexample :
    valid_chapters exC8fr "" = []
    ∧ (ctocFrames (output_id3 exC8fr "" "2026-10-12")).map Ctoc.child_element_ids
        = [["ghost"]]
    ∧ ¬ (ctocFrames (output_id3 exC8fr "" "2026-10-12")).map Ctoc.child_element_ids
        = [[]] := by
  refine ⟨by decide, by decide, by decide⟩

/-- C8 witness: the amended theorem applied at the concrete input. -/
theorem C8_empty_filter_removes_all_witness :
    valid_chapters exC8fr "" = []
    ∧ new_audio_segment exC8fr "" [1, 2, 3] = []
    ∧ ∀ t2 ∈ ctocFrames (output_id3 exC8fr "" "2026-10-12"),
        ∃ t : Ctoc, toc_element exC8fr = some t ∧
          t2.child_element_ids = t.child_element_ids.filter
            (fun x => !decide (x ∈ (extractChapters exC8fr).map Chap.element_id)) :=
  C8_empty_filter_removes_all exC8fr [1, 2, 3] "2026-10-12"

/-- C9: all non-chapter, non-TOC frames whose key is not the date key are
copied verbatim into the output, and the output holds exactly one
processing-date frame, carrying the strftime date string, added
unconditionally last and overwriting any copied frame of that kind.
Hypothesis: the input frame hash keys are distinct, as in any decoded
ID3 mapping. -/
theorem C9_passthrough_and_date (frames : List Frame) (fs d : String)
    (hK : (frames.map keyOf).Nodup) :
    (∀ k v : String, Frame.other k v ∈ frames → k ≠ "TDRL" →
      Frame.other k v ∈ output_id3 frames fs d)
    ∧ (output_id3 frames fs d).filter (fun g => keyOf g == "TDRL")
        = [Frame.other "TDRL" d] := by
  constructor
  · intro k v hkv hne
    rw [store_form frames fs d hK]
    apply mem_upsert_of_ne
    · refine List.mem_append.mpr (Or.inr ?_)
      unfold loopAdds updatedFrames
      exact List.mem_filterMap.mpr ⟨Frame.other k v,
        (other_mem_substituteChaps _ _ _ _ _).mpr hkv, rfl⟩
    · exact hne
  · rw [store_form frames fs d hK]
    exact filter_key_upsert _ (Frame.other "TDRL" d) (store_keys_nodup frames fs hK)

/-- Concrete input for the C9 witness: an ordinary text frame, a stale
date frame and a chapter. -/
def wC9fr : List Frame :=
  [Frame.other "TIT2" "Name", Frame.other "TDRL" "1999-01-01",
   Frame.chap ⟨"a", 0, 2, [("TIT2", "x")]⟩]

/-- C9 witness: the pass-through and date-stamp theorem applied at the
concrete input (whose stale date frame is overwritten). -/
theorem C9_passthrough_and_date_witness :
    ((wC9fr.map keyOf).Nodup)
    ∧ ((∀ k v : String, Frame.other k v ∈ wC9fr → k ≠ "TDRL" →
        Frame.other k v ∈ output_id3 wC9fr "q" "2026-10-12")
      ∧ (output_id3 wC9fr "q" "2026-10-12").filter (fun g => keyOf g == "TDRL")
          = [Frame.other "TDRL" "2026-10-12"]) :=
  ⟨by decide, C9_passthrough_and_date wC9fr "q" "2026-10-12" (by decide)⟩

/-- C10: removal is decided by element-id membership in the removal list,
not per chapter object — a chapter whose title does not match but whose
element id equals that of a matching chapter is excluded from the spliced
audio, from the output chapter frames, and from the output TOC children. -/
theorem C10_removal_by_id_membership (frames : List Frame) (fs d : String) (c c2 : Chap)
    (hc : Frame.chap c ∈ frames) (hc2 : Frame.chap c2 ∈ frames)
    (hnm : matchesFilter fs (chapTitle c) = false)
    (hm : matchesFilter fs (chapTitle c2) = true)
    (hid : c.element_id = c2.element_id) :
    (∀ ch ∈ valid_chapters frames fs, ch.element_id ≠ c.element_id)
    ∧ (∀ ch ∈ chapFrames (output_id3 frames fs d), ch.element_id ≠ c.element_id)
    ∧ (∀ t ∈ ctocFrames (output_id3 frames fs d),
        c.element_id ∉ t.child_element_ids) := by
  have hrem : c.element_id ∈ chapters_to_remove frames fs := by
    have hex : c2 ∈ extractChapters frames := by
      unfold extractChapters
      exact List.mem_filterMap.mpr ⟨Frame.chap c2, hc2, rfl⟩
    obtain ⟨i, hi⟩ := exists_mem_enumFrom hex 0
    have hall : (i, c2) ∈ all_chapters frames := hi
    have hs : ((i, c2) : IChap) ∈ sorted_chapters frames := mem_sortLe.mpr hall
    rw [hid]
    exact List.mem_map.mpr ⟨(i, c2), List.mem_filter.mpr ⟨hs, hm⟩, rfl⟩
  refine ⟨?_, ?_, ?_⟩
  · intro ch hch he
    unfold valid_chapters at hch
    have h2 := (List.mem_filter.mp (mem_sortLe.mp hch)).2
    rw [he] at h2
    simp [hrem] at h2
  · intro ch hch he
    have hmem2 : Frame.chap ch ∈ output_id3 frames fs d := mem_chapFrames.mp hch
    rcases mem_output_id3 hmem2 with ⟨t, _, hco⟩ | ⟨c3, hco, hnotin⟩ | ⟨k, v, hco⟩
    · exact absurd hco (by simp)
    · have hce : ch = c3 := by injection hco with h
      exact hnotin (by rw [← hce, he]; exact hrem)
    · exact absurd hco (by simp)
  · intro t ht hin
    have hmem2 : Frame.ctoc t ∈ output_id3 frames fs d := mem_ctocFrames.mp ht
    rcases mem_output_id3 hmem2 with ⟨tm, hu, hco⟩ | ⟨c3, hco, _⟩ | ⟨k, v, hco⟩
    · have hte : t = tm := by injection hco with h
      obtain ⟨t0, _, hform⟩ := updated_toc_some hu
      rw [hte, hform] at hin
      have h2 := (List.mem_filter.mp hin).2
      simp [hrem] at h2
    · exact absurd hco (by simp)
    · exact absurd hco (by simp)

/-- Concrete input for the C10 witness: two chapters that share the
element id x — one matching the filter, one not — plus a TOC listing x. -/
def wC10fr : List Frame :=
  [Frame.chap ⟨"x", 0, 2, [("TIT2", "Ad")]⟩,
   Frame.chap ⟨"x", 2, 5, [("TIT2", "Keep")]⟩,
   Frame.ctoc ⟨"toc", ["x", "y"]⟩]

/-- C10 witness: the shared-id exclusion theorem applied at the concrete
input. -/
theorem C10_removal_by_id_membership_witness :
    Frame.chap (Chap.mk "x" 2 5 [("TIT2", "Keep")]) ∈ wC10fr
    ∧ Frame.chap (Chap.mk "x" 0 2 [("TIT2", "Ad")]) ∈ wC10fr
    ∧ matchesFilter "ad" (chapTitle (Chap.mk "x" 2 5 [("TIT2", "Keep")])) = false
    ∧ matchesFilter "ad" (chapTitle (Chap.mk "x" 0 2 [("TIT2", "Ad")])) = true
    ∧ (Chap.mk "x" 2 5 [("TIT2", "Keep")]).element_id
        = (Chap.mk "x" 0 2 [("TIT2", "Ad")]).element_id
    ∧ ((∀ ch ∈ valid_chapters wC10fr "ad",
          ch.element_id ≠ (Chap.mk "x" 2 5 [("TIT2", "Keep")]).element_id)
      ∧ (∀ ch ∈ chapFrames (output_id3 wC10fr "ad" "2026-10-12"),
          ch.element_id ≠ (Chap.mk "x" 2 5 [("TIT2", "Keep")]).element_id)
      ∧ (∀ t ∈ ctocFrames (output_id3 wC10fr "ad" "2026-10-12"),
          (Chap.mk "x" 2 5 [("TIT2", "Keep")]).element_id ∉ t.child_element_ids)) :=
  ⟨by decide, by decide, by decide, by decide, by decide,
    C10_removal_by_id_membership wC10fr "ad" "2026-10-12"
      (Chap.mk "x" 2 5 [("TIT2", "Keep")]) (Chap.mk "x" 0 2 [("TIT2", "Ad")])
      (by decide) (by decide) (by decide) (by decide) (by decide)⟩
